import Mathlib

/-!
Verification of the merkle commitment subsystem of the agent-memory-registry
repository: the JavaScript `MerkleTree` class of `scripts/checkpoint.js`
(leaf layers, sorted pairwise hashing, odd-promotion, proof generation) and
the Solidity `AgentMemoryRegistry` contract (`verifyProof`, agent
registration and transfer).  Byte buffers are modelled as lists of byte
values; the keccak256 primitive is an abstract parameter, so every theorem
holds for the real hash as a special case.
-/

namespace AgentMemory

/-- A digest / byte buffer: a list of byte values (each intended `< 256`). -/
abbrev Digest := List Nat

/-- `Buffer.alloc(32)`: the all-zero 32-byte sentinel digest. -/
def zeroDigest : Digest := List.replicate 32 0

/-- `Buffer.compare(a, b)`: lexicographic comparison of byte buffers,
shorter prefix compares below. -/
def bufCompare : Digest → Digest → Ordering
  | [], [] => .eq
  | [], _ :: _ => .lt
  | _ :: _, [] => .gt
  | a :: as, b :: bs =>
    if a < b then .lt else if b < a then .gt else bufCompare as bs

/-- `Buffer.compare(a, b) <= 0`, the sort condition in `hashPair`. -/
def bufLe (a b : Digest) : Bool :=
  match bufCompare a b with
  | .gt => false
  | _ => true

/-- `MerkleTree.hashPair`: sort the two digests ascending by byte value,
concatenate, and hash the concatenation. -/
def hashPair (keccak : Digest → Digest) (a b : Digest) : Digest :=
  if bufLe a b then keccak (a ++ b) else keccak (b ++ a)

/-- One iteration of the `buildTree` while-loop: combine adjacent pairs in
order; an odd trailing entry is promoted unchanged. -/
def nextLayer (keccak : Digest → Digest) : List Digest → List Digest
  | a :: b :: rest => hashPair keccak a b :: nextLayer keccak rest
  | [a] => [a]
  | [] => []

theorem nextLayer_length (keccak : Digest → Digest) (l : List Digest) :
    (nextLayer keccak l).length = (l.length + 1) / 2 := by
  match l with
  | [] => simp [nextLayer]
  | [a] => simp [nextLayer]
  | a :: b :: rest =>
    simp only [nextLayer, List.length_cons, nextLayer_length keccak rest]
    omega

/-- `this.layers`: the leaf layer followed by the layers produced by the
`buildTree` loop, which runs while the current layer has more than one
entry. -/
def buildLayers (keccak : Digest → Digest) (l : List Digest) :
    List (List Digest) :=
  if l.length ≤ 1 then [l]
  else l :: buildLayers keccak (nextLayer keccak l)
termination_by l.length
decreasing_by simp only [nextLayer_length]; omega

theorem buildLayers_of_le_one (keccak : Digest → Digest) (l : List Digest)
    (h : l.length ≤ 1) : buildLayers keccak l = [l] := by
  rw [buildLayers, if_pos h]

theorem buildLayers_of_gt_one (keccak : Digest → Digest) (l : List Digest)
    (h : 1 < l.length) :
    buildLayers keccak l = l :: buildLayers keccak (nextLayer keccak l) := by
  rw [buildLayers, if_neg (by omega)]

theorem buildLayers_ne_nil (keccak : Digest → Digest) (l : List Digest) :
    buildLayers keccak l ≠ [] := by
  rw [buildLayers]
  split <;> simp

/-- `MerkleTree.getRoot`: the first entry of the top layer, or the all-zero
sentinel when the top layer is empty. -/
def getRoot (keccak : Digest → Digest) (leaves : List Digest) : Digest :=
  match (buildLayers keccak leaves).getLast? with
  | some top => top.headD zeroDigest
  | none => zeroDigest

theorem getRoot_of_le_one (keccak : Digest → Digest) (l : List Digest)
    (h : l.length ≤ 1) : getRoot keccak l = l.headD zeroDigest := by
  rw [getRoot, buildLayers_of_le_one keccak l h]
  rfl

theorem getRoot_step (keccak : Digest → Digest) (l : List Digest)
    (h : 1 < l.length) :
    getRoot keccak l = getRoot keccak (nextLayer keccak l) := by
  rw [getRoot, getRoot, buildLayers_of_gt_one keccak l h]
  obtain ⟨r, rs, hr⟩ :=
    List.exists_cons_of_ne_nil (buildLayers_ne_nil keccak (nextLayer keccak l))
  rw [hr, List.getLast?_cons_cons]

theorem bufCompare_self (a : Digest) : bufCompare a a = .eq := by
  induction a with
  | nil => rfl
  | cons x xs ih => simp [bufCompare, ih]

theorem eq_of_bufCompare_eq : ∀ {a b : Digest}, bufCompare a b = .eq → a = b
  | [], [], _ => rfl
  | [], _ :: _, h => by simp [bufCompare] at h
  | _ :: _, [], h => by simp [bufCompare] at h
  | a :: as, b :: bs, h => by
    simp only [bufCompare] at h
    rcases Nat.lt_trichotomy a b with hab | hab | hab
    · rw [if_pos hab] at h; exact absurd h (by simp)
    · subst hab
      rw [if_neg (lt_irrefl a), if_neg (lt_irrefl a)] at h
      rw [eq_of_bufCompare_eq h]
    · rw [if_neg (by omega), if_pos hab] at h; exact absurd h (by simp)

theorem bufCompare_swap : ∀ (a b : Digest),
    bufCompare b a = (bufCompare a b).swap
  | [], [] => rfl
  | [], _ :: _ => rfl
  | _ :: _, [] => rfl
  | a :: as, b :: bs => by
    simp only [bufCompare]
    rcases Nat.lt_trichotomy a b with hab | hab | hab
    · rw [if_pos hab, if_neg (by omega), if_pos hab]; rfl
    · subst hab
      rw [if_neg (lt_irrefl a), if_neg (lt_irrefl a), if_neg (lt_irrefl a),
        if_neg (lt_irrefl a)]
      exact bufCompare_swap as bs
    · rw [if_pos hab, if_neg (by omega), if_pos hab]; rfl

theorem hashPair_comm (keccak : Digest → Digest) (a b : Digest) :
    hashPair keccak a b = hashPair keccak b a := by
  unfold hashPair bufLe
  rcases h : bufCompare a b with _ | _ | _
  · rw [bufCompare_swap a b, h]; rfl
  · rw [eq_of_bufCompare_eq h]
    split <;> split <;> rfl
  · rw [bufCompare_swap a b, h]; rfl

/-- The sibling-collection loop of `MerkleTree.getProof`, over all layers
below the top one: at each layer take the entry at the index with flipped
lowest bit when it exists, then halve the index. -/
def proofFromLayers : List (List Digest) → Nat → List Digest
  | [], _ => []
  | [_], _ => []
  | layer :: next :: rest, idx =>
    (match layer[if idx % 2 = 1 then idx - 1 else idx + 1]? with
     | some d => [d]
     | none => []) ++ proofFromLayers (next :: rest) (idx / 2)

/-- `MerkleTree.getProof`: bounds-checked proof generation; an index at or
past the leaf count throws `Index out of bounds`. -/
def getProof (keccak : Digest → Digest) (leaves : List Digest)
    (index : Nat) : Except String (List Digest) :=
  if index ≥ leaves.length then .error "Index out of bounds"
  else .ok (proofFromLayers (buildLayers keccak leaves) index)

theorem nextLayer_getElem? (keccak : Digest → Digest) :
    ∀ (l : List Digest) (j : Nat),
    (nextLayer keccak l)[j]? =
      match l[2 * j]?, l[2 * j + 1]? with
      | some a, some b => some (hashPair keccak a b)
      | some a, none => some a
      | none, _ => none
  | [], j => by simp [nextLayer]
  | [a], 0 => by simp [nextLayer]
  | [a], j + 1 => by
    have h2 : 2 * (j + 1) = 2 * j + 1 + 1 := by ring
    simp only [nextLayer, h2, List.getElem?_cons_succ, List.getElem?_nil]
  | a :: b :: rest, 0 => by simp [nextLayer]
  | a :: b :: rest, j + 1 => by
    have h2 : 2 * (j + 1) = 2 * j + 1 + 1 := by ring
    simp only [nextLayer, h2, List.getElem?_cons_succ]
    exact nextLayer_getElem? keccak rest j

/-- Core inclusion-soundness induction: folding the generated sibling list
with the sorted pairwise hash, starting from the leaf at a valid index,
recomputes the root. -/
theorem proof_fold_root (keccak : Digest → Digest) :
    ∀ (n : Nat) (l : List Digest), l.length ≤ n → ∀ (i : Nat) (d : Digest),
    l[i]? = some d →
    (proofFromLayers (buildLayers keccak l) i).foldl (hashPair keccak) d =
      getRoot keccak l
  | 0, l, hn, i, d, hd => by
    have : l = [] := List.length_eq_zero.mp (by omega)
    subst this
    simp at hd
  | n + 1, l, hn, i, d, hd => by
    have hi : i < l.length := by
      by_contra hcon
      rw [List.getElem?_eq_none (by omega)] at hd
      exact absurd hd (by simp)
    by_cases hlen : l.length ≤ 1
    · -- a single layer: empty proof, the root is the leaf itself
      rw [buildLayers_of_le_one keccak l hlen, getRoot_of_le_one keccak l hlen]
      cases l with
      | nil => simp at hd
      | cons x xs =>
        cases xs with
        | nil =>
          cases i with
          | zero =>
            simp only [List.getElem?_cons_zero, Option.some.injEq] at hd
            subst hd
            rfl
          | succ k => simp at hd
        | cons y ys => simp at hlen
    · push_neg at hlen
      rw [buildLayers_of_gt_one keccak l hlen]
      obtain ⟨r, rs, hr⟩ := List.exists_cons_of_ne_nil
        (buildLayers_ne_nil keccak (nextLayer keccak l))
      rw [hr]
      simp only [proofFromLayers]
      rw [List.foldl_append]
      have hjlt : i / 2 < (nextLayer keccak l).length := by
        rw [nextLayer_length]; omega
      have hnlen : (nextLayer keccak l).length ≤ n := by
        rw [nextLayer_length]; omega
      have hij : i = 2 * (i / 2) ∨ i = 2 * (i / 2) + 1 := by omega
      rcases hij with hij | hij
      · -- even index: the sibling sits to the right, if it exists
        have hmod : ¬ i % 2 = 1 := by omega
        rw [if_neg hmod]
        cases hsib : l[i + 1]? with
        | some b =>
          have hnext : (nextLayer keccak l)[i / 2]? =
              some (hashPair keccak d b) := by
            rw [nextLayer_getElem? keccak l (i / 2), ← hij]
            rw [hd, hsib]
          have IH := proof_fold_root keccak n (nextLayer keccak l) hnlen
            (i / 2) _ hnext
          rw [hr] at IH
          simp only [hsib, List.foldl_cons, List.foldl_nil]
          rw [IH, getRoot_step keccak l hlen]
        | none =>
          have hnext : (nextLayer keccak l)[i / 2]? = some d := by
            rw [nextLayer_getElem? keccak l (i / 2), ← hij]
            rw [hd, hsib]
          have IH := proof_fold_root keccak n (nextLayer keccak l) hnlen
            (i / 2) _ hnext
          rw [hr] at IH
          simp only [hsib, List.foldl_nil, List.nil_append]
          rw [IH, getRoot_step keccak l hlen]
      · -- odd index: the sibling sits to the left and always exists
        have hmod : i % 2 = 1 := by omega
        rw [if_pos hmod]
        have h2j : i - 1 < l.length := by omega
        have hsib : l[i - 1]? = some (l.get ⟨i - 1, h2j⟩) :=
          List.getElem?_eq_getElem h2j
        have hsub : i - 1 = 2 * (i / 2) := by omega
        have hnext : (nextLayer keccak l)[i / 2]? =
            some (hashPair keccak d (l.get ⟨i - 1, h2j⟩)) := by
          rw [nextLayer_getElem? keccak l (i / 2), ← hij, ← hsub, hd, hsib,
            hashPair_comm keccak d (l.get ⟨i - 1, h2j⟩)]
        have IH := proof_fold_root keccak n (nextLayer keccak l) hnlen
          (i / 2) _ hnext
        rw [hr] at IH
        simp only [hsib, List.foldl_cons, List.foldl_nil]
        rw [IH, getRoot_step keccak l hlen]

/-- The unsigned integer a byte buffer denotes in big-endian base 256; a
`bytes32` value compares in Solidity as this number. -/
def bytesToNat (l : Digest) : Nat := l.foldl (fun acc b => acc * 256 + b) 0

/-- One iteration of the proof loop in the Solidity
`AgentMemoryRegistry.verifyProof`: hash the smaller-first concatenation of
the running hash and the proof element, comparing as `bytes32`. -/
def solStep (keccak : Digest → Digest) (computedHash proofElement : Digest) :
    Digest :=
  if bytesToNat computedHash ≤ bytesToNat proofElement then
    keccak (computedHash ++ proofElement)
  else
    keccak (proofElement ++ computedHash)

/-- The whole proof loop of the Solidity `verifyProof`: fold the proof
elements in order into the running hash, starting from the leaf. -/
def solProcessProof (keccak : Digest → Digest) (leaf : Digest)
    (proof : List Digest) : Digest :=
  proof.foldl (solStep keccak) leaf

/-- A well-formed fixed-width digest: exactly 32 bytes, each below 256. -/
abbrev isDigest (d : Digest) : Prop := d.length = 32 ∧ ∀ b ∈ d, b < 256

/-- The hash primitive returns well-formed 32-byte digests (true of
keccak256). -/
def GoodHash (keccak : Digest → Digest) : Prop := ∀ x, isDigest (keccak x)

theorem hashPair_isDigest (keccak : Digest → Digest) (hk : GoodHash keccak)
    (a b : Digest) : isDigest (hashPair keccak a b) := by
  unfold hashPair
  split
  · exact hk _
  · exact hk _

theorem bytesToNat_foldl (l : List Nat) : ∀ acc : Nat,
    l.foldl (fun acc b => acc * 256 + b) acc =
      acc * 256 ^ l.length + l.foldl (fun acc b => acc * 256 + b) 0 := by
  induction l with
  | nil => intro acc; simp
  | cons x xs ih =>
    intro acc
    simp only [List.foldl_cons, List.length_cons]
    rw [ih (acc * 256 + x), ih (0 * 256 + x)]
    ring

theorem bytesToNat_cons (x : Nat) (xs : List Nat) :
    bytesToNat (x :: xs) = x * 256 ^ xs.length + bytesToNat xs := by
  unfold bytesToNat
  simp only [List.foldl_cons]
  rw [bytesToNat_foldl xs (0 * 256 + x)]
  ring

theorem bytesToNat_lt (l : List Nat) (hl : ∀ x ∈ l, x < 256) :
    bytesToNat l < 256 ^ l.length := by
  induction l with
  | nil => simp [bytesToNat]
  | cons x xs ih =>
    rw [bytesToNat_cons]
    have hx : x < 256 := hl x (List.mem_cons_self x xs)
    have hxs : bytesToNat xs < 256 ^ xs.length :=
      ih fun y hy => hl y (List.mem_cons_of_mem x hy)
    have h1 : x * 256 ^ xs.length + bytesToNat xs < (x + 1) * 256 ^ xs.length := by
      have := Nat.pos_pow_of_pos xs.length (by omega : 0 < 256)
      nlinarith
    have h2 : (x + 1) * 256 ^ xs.length ≤ 256 * 256 ^ xs.length :=
      Nat.mul_le_mul_right _ (by omega)
    calc x * 256 ^ xs.length + bytesToNat xs
        < (x + 1) * 256 ^ xs.length := h1
      _ ≤ 256 * 256 ^ xs.length := h2
      _ = 256 ^ (x :: xs).length := by rw [List.length_cons]; ring

theorem bufCompare_lt_nat : ∀ (a b : Digest), a.length = b.length →
    (∀ x ∈ a, x < 256) → (∀ x ∈ b, x < 256) →
    bufCompare a b = .lt → bytesToNat a < bytesToNat b
  | [], [], _, _, _, h => by simp [bufCompare] at h
  | [], _ :: _, hlen, _, _, _ => by simp at hlen
  | _ :: _, [], hlen, _, _, _ => by simp at hlen
  | x :: xs, y :: ys, hlen, ha, hb, h => by
    have hlen' : xs.length = ys.length := by simpa using hlen
    rw [bytesToNat_cons, bytesToNat_cons, hlen']
    simp only [bufCompare] at h
    rcases Nat.lt_trichotomy x y with hxy | hxy | hxy
    · have hra : bytesToNat xs < 256 ^ ys.length := by
        rw [← hlen']
        exact bytesToNat_lt xs fun z hz => ha z (List.mem_cons_of_mem x hz)
      have : (x + 1) * 256 ^ ys.length ≤ y * 256 ^ ys.length :=
        Nat.mul_le_mul_right _ (by omega)
      nlinarith
    · subst hxy
      rw [if_neg (lt_irrefl x), if_neg (lt_irrefl x)] at h
      have := bufCompare_lt_nat xs ys hlen'
        (fun z hz => ha z (List.mem_cons_of_mem x hz))
        (fun z hz => hb z (List.mem_cons_of_mem x hz)) h
      omega
    · rw [if_neg (by omega), if_pos hxy] at h
      exact absurd h (by simp)

theorem bufLe_true_nat (a b : Digest) (hlen : a.length = b.length)
    (ha : ∀ x ∈ a, x < 256) (hb : ∀ x ∈ b, x < 256)
    (h : bufLe a b = true) : bytesToNat a ≤ bytesToNat b := by
  unfold bufLe at h
  rcases hc : bufCompare a b with _ | _ | _
  · exact le_of_lt (bufCompare_lt_nat a b hlen ha hb hc)
  · rw [eq_of_bufCompare_eq hc]
  · rw [hc] at h; simp at h

theorem bufLe_false_nat (a b : Digest) (hlen : a.length = b.length)
    (ha : ∀ x ∈ a, x < 256) (hb : ∀ x ∈ b, x < 256)
    (h : bufLe a b = false) : bytesToNat b < bytesToNat a := by
  unfold bufLe at h
  rcases hc : bufCompare a b with _ | _ | _
  · rw [hc] at h; simp at h
  · rw [hc] at h; simp at h
  · have : bufCompare b a = .lt := by
      rw [bufCompare_swap a b, hc]; rfl
    exact bufCompare_lt_nat b a hlen.symm hb ha this

/-- On well-formed 32-byte digests, the JavaScript builder's combine step
(`hashPair`: `Buffer.compare` byte order) and the Solidity verifier's
combine step (`bytes32` numeric order) agree. -/
theorem solStep_eq_hashPair (keccak : Digest → Digest) (a b : Digest)
    (ha : isDigest a) (hb : isDigest b) :
    solStep keccak a b = hashPair keccak a b := by
  obtain ⟨hal, hav⟩ := ha
  obtain ⟨hbl, hbv⟩ := hb
  have hlen : a.length = b.length := by omega
  unfold solStep hashPair
  cases hle : bufLe a b with
  | true =>
    rw [if_pos (bufLe_true_nat a b hlen hav hbv hle)]
    simp
  | false =>
    rw [if_neg (by
      have := bufLe_false_nat a b hlen hav hbv hle
      omega)]
    simp

theorem foldl_solStep_eq (keccak : Digest → Digest) (hk : GoodHash keccak) :
    ∀ (proof : List Digest), (∀ p ∈ proof, isDigest p) →
    ∀ d : Digest, isDigest d →
    proof.foldl (solStep keccak) d = proof.foldl (hashPair keccak) d := by
  intro proof
  induction proof with
  | nil => intro _ d _; rfl
  | cons p ps ih =>
    intro hp d hd
    simp only [List.foldl_cons]
    rw [solStep_eq_hashPair keccak d p hd (hp p (List.mem_cons_self p ps))]
    exact ih (fun q hq => hp q (List.mem_cons_of_mem p hq)) _
      (hashPair_isDigest keccak hk d p)

theorem nextLayer_valid (keccak : Digest → Digest) (hk : GoodHash keccak) :
    ∀ l : List Digest, (∀ x ∈ l, isDigest x) →
    ∀ x ∈ nextLayer keccak l, isDigest x
  | [], _, x, hx => by simp [nextLayer] at hx
  | [a], h, x, hx => by
    simp only [nextLayer, List.mem_singleton] at hx
    rw [hx]
    exact h a (by simp)
  | a :: b :: rest, h, x, hx => by
    simp only [nextLayer, List.mem_cons] at hx
    rcases hx with rfl | hx
    · exact hashPair_isDigest keccak hk a b
    · exact nextLayer_valid keccak hk rest
        (fun y hy => h y (List.mem_cons_of_mem a (List.mem_cons_of_mem b hy)))
        x hx

theorem buildLayers_valid (keccak : Digest → Digest) (hk : GoodHash keccak)
    (l : List Digest) (hl : ∀ x ∈ l, isDigest x) :
    ∀ layer ∈ buildLayers keccak l, ∀ x ∈ layer, isDigest x := by
  by_cases h : l.length ≤ 1
  · rw [buildLayers_of_le_one keccak l h]
    intro layer hm
    simp only [List.mem_singleton] at hm
    subst hm
    exact hl
  · rw [buildLayers_of_gt_one keccak l (by omega)]
    intro layer hm
    rcases List.mem_cons.mp hm with rfl | hm2
    · exact hl
    · exact buildLayers_valid keccak hk (nextLayer keccak l)
        (nextLayer_valid keccak hk l hl) layer hm2
termination_by l.length
decreasing_by simp only [nextLayer_length]; omega

theorem mem_proofFromLayers :
    ∀ (layers : List (List Digest)) (i : Nat) (x : Digest),
    x ∈ proofFromLayers layers i → ∃ layer ∈ layers, x ∈ layer
  | [], _, x, hx => by simp [proofFromLayers] at hx
  | [l], _, x, hx => by simp [proofFromLayers] at hx
  | l :: l2 :: rest, i, x, hx => by
    simp only [proofFromLayers, List.mem_append] at hx
    rcases hx with hx | hx
    · cases hsib : l[if i % 2 = 1 then i - 1 else i + 1]? with
      | some d =>
        rw [hsib] at hx
        simp only [List.mem_singleton] at hx
        subst hx
        exact ⟨l, List.mem_cons_self l _, List.getElem?_mem hsib⟩
      | none =>
        rw [hsib] at hx
        simp at hx
    · obtain ⟨layer, hmem, hxl⟩ := mem_proofFromLayers (l2 :: rest) (i / 2) x hx
      exact ⟨layer, List.mem_cons_of_mem l hmem, hxl⟩

/-- Every digest appearing in a generated proof is well formed, provided
the hash is well formed and every leaf is. -/
theorem proof_elements_valid (keccak : Digest → Digest) (hk : GoodHash keccak)
    (l : List Digest) (hl : ∀ x ∈ l, isDigest x) (i : Nat) (p : List Digest)
    (hp : getProof keccak l i = .ok p) : ∀ x ∈ p, isDigest x := by
  unfold getProof at hp
  split at hp
  · exact absurd hp (by simp)
  · simp only [Except.ok.injEq] at hp
    subst hp
    intro x hx
    obtain ⟨layer, hmem, hxl⟩ :=
      mem_proofFromLayers (buildLayers keccak l) i x hx
    exact buildLayers_valid keccak hk l hl layer hmem x hxl

/-- The final comparison of the Solidity `verifyProof`: the recomputed
candidate equals the target root byte-for-byte. -/
def solVerifyRoot (keccak : Digest → Digest) (leaf : Digest)
    (proof : List Digest) (root : Digest) : Bool :=
  solProcessProof keccak leaf proof == root

/-- `Checkpoint` struct of `AgentMemoryRegistry`. -/
structure Checkpoint where
  merkleRoot : Digest
  timestamp : Nat
  blockNumber : Nat
  metadata : String

/-- `AgentInfo` struct of `AgentMemoryRegistry`; addresses are modelled as
naturals with `0` for the zero address. -/
structure AgentInfo where
  owner : Nat
  agentId : String
  registeredAt : Nat
  active : Bool

/-- Solidity mapping default: the all-zero `AgentInfo`. -/
def emptyAgentInfo : AgentInfo := ⟨0, "", 0, false⟩

/-- Contract storage of `AgentMemoryRegistry`. -/
structure RegistryState where
  agents : String → AgentInfo
  checkpoints : String → List Checkpoint
  addressToAgent : Nat → String
  totalAgents : Nat
  totalCheckpoints : Nat

/-- Deployment state: every mapping at its Solidity default. -/
def initialState : RegistryState :=
  ⟨fun _ => emptyAgentInfo, fun _ => [], fun _ => "", 0, 0⟩

/-- `registerAgent`: reverts on empty id, an already-registered id, or a
sender that already has an agent; otherwise records the new agent both
ways and bumps `totalAgents`. -/
def registerAgent (s : RegistryState) (sender : Nat) (agentId : String)
    (ts : Nat) : Except String RegistryState :=
  if agentId = "" then .error "EmptyAgentId"
  else if (s.agents agentId).owner ≠ 0 then .error "AgentAlreadyRegistered"
  else if s.addressToAgent sender ≠ "" then .error "AddressAlreadyHasAgent"
  else .ok { s with
    agents := fun id =>
      if id = agentId then ⟨sender, agentId, ts, true⟩ else s.agents id,
    addressToAgent := fun a =>
      if a = sender then agentId else s.addressToAgent a,
    totalAgents := s.totalAgents + 1 }

/-- `publishCheckpoint`: owner-only, active-only; appends a checkpoint. -/
def publishCheckpoint (s : RegistryState) (sender : Nat) (agentId : String)
    (merkleRoot : Digest) (metadata : String) (ts bn : Nat) :
    Except String RegistryState :=
  if (s.agents agentId).owner ≠ sender then .error "NotAgentOwner"
  else if ¬ (s.agents agentId).active then .error "AgentInactive"
  else .ok { s with
    checkpoints := fun id =>
      if id = agentId then
        s.checkpoints agentId ++ [⟨merkleRoot, ts, bn, metadata⟩]
      else s.checkpoints id,
    totalCheckpoints := s.totalCheckpoints + 1 }

/-- `publishCheckpointSimple`: resolves the agent id through
`addressToAgent[msg.sender]`, then appends a checkpoint. -/
def publishCheckpointSimple (s : RegistryState) (sender : Nat)
    (merkleRoot : Digest) (metadata : String) (ts bn : Nat) :
    Except String RegistryState :=
  if s.addressToAgent sender = "" then .error "AgentNotRegistered"
  else if ¬ (s.agents (s.addressToAgent sender)).active then
    .error "AgentInactive"
  else .ok { s with
    checkpoints := fun id =>
      if id = s.addressToAgent sender then
        s.checkpoints (s.addressToAgent sender) ++
          [⟨merkleRoot, ts, bn, metadata⟩]
      else s.checkpoints id,
    totalCheckpoints := s.totalCheckpoints + 1 }

/-- `transferAgent`: owner-only; rejects the zero address and a new owner
that already has an agent; deletes the old reverse entry, then writes the
new one. -/
def transferAgent (s : RegistryState) (sender : Nat) (agentId : String)
    (newOwner : Nat) : Except String RegistryState :=
  if (s.agents agentId).owner ≠ sender then .error "NotAgentOwner"
  else if newOwner = 0 then .error "Invalid new owner"
  else if s.addressToAgent newOwner ≠ "" then
    .error "New owner already has agent"
  else
    let oldOwner := (s.agents agentId).owner
    .ok { s with
      agents := fun id =>
        if id = agentId then { s.agents agentId with owner := newOwner }
        else s.agents id,
      addressToAgent := fun a =>
        if a = newOwner then agentId
        else if a = oldOwner then "" else s.addressToAgent a }

/-- `deactivateAgent`: owner-only; clears the active flag. -/
def deactivateAgent (s : RegistryState) (sender : Nat) (agentId : String) :
    Except String RegistryState :=
  if (s.agents agentId).owner ≠ sender then .error "NotAgentOwner"
  else .ok { s with
    agents := fun id =>
      if id = agentId then { s.agents agentId with active := false }
      else s.agents id }

/-- `reactivateAgent`: owner-only; sets the active flag. -/
def reactivateAgent (s : RegistryState) (sender : Nat) (agentId : String) :
    Except String RegistryState :=
  if (s.agents agentId).owner ≠ sender then .error "NotAgentOwner"
  else .ok { s with
    agents := fun id =>
      if id = agentId then { s.agents agentId with active := true }
      else s.agents id }

/-- `verifyProof` view function: reverts when the checkpoint index is out
of range, otherwise folds the proof into the leaf and compares with the
stored merkle root. -/
def verifyProofFn (keccak : Digest → Digest) (s : RegistryState)
    (agentId : String) (checkpointIndex : Nat) (leaf : Digest)
    (proof : List Digest) : Except String Bool :=
  match (s.checkpoints agentId)[checkpointIndex]? with
  | none => .error "Invalid checkpoint"
  | some cp => .ok (solVerifyRoot keccak leaf proof cp.merkleRoot)

/-- One successful external call to the contract, from a nonzero caller
address; reverting calls leave the state unchanged and are omitted. -/
inductive RegStep : RegistryState → RegistryState → Prop where
  | register {s s' sender agentId ts} : sender ≠ 0 →
      registerAgent s sender agentId ts = .ok s' → RegStep s s'
  | publish {s s' sender agentId root md ts bn} : sender ≠ 0 →
      publishCheckpoint s sender agentId root md ts bn = .ok s' →
      RegStep s s'
  | publishSimple {s s' sender root md ts bn} : sender ≠ 0 →
      publishCheckpointSimple s sender root md ts bn = .ok s' →
      RegStep s s'
  | transfer {s s' sender agentId newOwner} : sender ≠ 0 →
      transferAgent s sender agentId newOwner = .ok s' → RegStep s s'
  | deactivate {s s' sender agentId} : sender ≠ 0 →
      deactivateAgent s sender agentId = .ok s' → RegStep s s'
  | reactivate {s s' sender agentId} : sender ≠ 0 →
      reactivateAgent s sender agentId = .ok s' → RegStep s s'

/-- States reachable from deployment through successful external calls. -/
def Reachable (s : RegistryState) : Prop :=
  Relation.ReflTransGen RegStep initialState s

/-- The inductive ownership invariant: a registered owner's reverse-lookup
entry names exactly its agent, and no agent with a nonzero owner has the
empty id. -/
def RegInv (s : RegistryState) : Prop :=
  ∀ id, (s.agents id).owner ≠ 0 →
    id ≠ "" ∧ s.addressToAgent ((s.agents id).owner) = id

theorem regInv_initial : RegInv initialState := by
  intro id hown
  exact absurd rfl hown

theorem regInv_register (s s' : RegistryState) (sender : Nat)
    (agentId : String) (ts : Nat) (hInv : RegInv s) (_hs : sender ≠ 0)
    (h : registerAgent s sender agentId ts = .ok s') : RegInv s' := by
  unfold registerAgent at h
  split at h
  · exact absurd h (by simp)
  split at h
  · exact absurd h (by simp)
  split at h
  · exact absurd h (by simp)
  rename_i h1 h2 h3
  rw [not_not] at h3
  simp only [Except.ok.injEq] at h
  subst h
  intro id hown
  dsimp only at hown ⊢
  by_cases hid : id = agentId
  · subst hid
    rw [if_pos rfl] at hown ⊢
    exact ⟨h1, by rw [if_pos rfl]⟩
  · rw [if_neg hid] at hown ⊢
    obtain ⟨hne, hmap⟩ := hInv id hown
    refine ⟨hne, ?_⟩
    by_cases hos : (s.agents id).owner = sender
    · exfalso
      rw [hos, h3] at hmap
      exact hne hmap.symm
    · rw [if_neg hos]
      exact hmap

theorem regInv_publish (s s' : RegistryState) (sender : Nat)
    (agentId : String) (root : Digest) (md : String) (ts bn : Nat)
    (hInv : RegInv s)
    (h : publishCheckpoint s sender agentId root md ts bn = .ok s') :
    RegInv s' := by
  unfold publishCheckpoint at h
  split at h
  · exact absurd h (by simp)
  split at h
  · exact absurd h (by simp)
  simp only [Except.ok.injEq] at h
  subst h
  intro id hown
  exact hInv id hown

theorem regInv_publishSimple (s s' : RegistryState) (sender : Nat)
    (root : Digest) (md : String) (ts bn : Nat) (hInv : RegInv s)
    (h : publishCheckpointSimple s sender root md ts bn = .ok s') :
    RegInv s' := by
  unfold publishCheckpointSimple at h
  split at h
  · exact absurd h (by simp)
  split at h
  · exact absurd h (by simp)
  simp only [Except.ok.injEq] at h
  subst h
  intro id hown
  exact hInv id hown

theorem regInv_transfer (s s' : RegistryState) (sender : Nat)
    (agentId : String) (newOwner : Nat) (hInv : RegInv s) (hs : sender ≠ 0)
    (h : transferAgent s sender agentId newOwner = .ok s') : RegInv s' := by
  unfold transferAgent at h
  split at h
  · exact absurd h (by simp)
  split at h
  · exact absurd h (by simp)
  split at h
  · exact absurd h (by simp)
  rename_i h1 h2 h3
  rw [not_not] at h1
  rw [not_not] at h3
  simp only [Except.ok.injEq] at h
  subst h
  have hne_a : agentId ≠ "" ∧ s.addressToAgent sender = agentId := by
    have := hInv agentId (by rw [h1]; exact hs)
    rwa [h1] at this
  intro id hown
  dsimp only at hown ⊢
  by_cases hid : id = agentId
  · subst hid
    rw [if_pos rfl] at hown ⊢
    exact ⟨hne_a.1, by rw [if_pos rfl]⟩
  · rw [if_neg hid] at hown ⊢
    obtain ⟨hne, hmap⟩ := hInv id hown
    refine ⟨hne, ?_⟩
    have hnew : (s.agents id).owner ≠ newOwner := by
      intro he
      rw [he, h3] at hmap
      exact hne hmap.symm
    have hold : (s.agents id).owner ≠ (s.agents agentId).owner := by
      intro he
      rw [he, h1, hne_a.2] at hmap
      exact hid hmap.symm
    rw [if_neg hnew, if_neg hold]
    exact hmap

theorem regInv_deactivate (s s' : RegistryState) (sender : Nat)
    (agentId : String) (hInv : RegInv s)
    (h : deactivateAgent s sender agentId = .ok s') : RegInv s' := by
  unfold deactivateAgent at h
  split at h
  · exact absurd h (by simp)
  simp only [Except.ok.injEq] at h
  subst h
  intro id hown
  dsimp only at hown ⊢
  by_cases hid : id = agentId
  · subst hid
    rw [if_pos rfl] at hown ⊢
    exact hInv id hown
  · rw [if_neg hid] at hown ⊢
    exact hInv id hown

theorem regInv_reactivate (s s' : RegistryState) (sender : Nat)
    (agentId : String) (hInv : RegInv s)
    (h : reactivateAgent s sender agentId = .ok s') : RegInv s' := by
  unfold reactivateAgent at h
  split at h
  · exact absurd h (by simp)
  simp only [Except.ok.injEq] at h
  subst h
  intro id hown
  dsimp only at hown ⊢
  by_cases hid : id = agentId
  · subst hid
    rw [if_pos rfl] at hown ⊢
    exact hInv id hown
  · rw [if_neg hid] at hown ⊢
    exact hInv id hown

theorem regInv_step (s s' : RegistryState) (hInv : RegInv s)
    (h : RegStep s s') : RegInv s' := by
  cases h with
  | register hs he => exact regInv_register _ _ _ _ _ hInv hs he
  | publish hs he => exact regInv_publish _ _ _ _ _ _ _ _ hInv he
  | publishSimple hs he => exact regInv_publishSimple _ _ _ _ _ _ _ hInv he
  | transfer hs he => exact regInv_transfer _ _ _ _ _ hInv hs he
  | deactivate hs he => exact regInv_deactivate _ _ _ _ hInv he
  | reactivate hs he => exact regInv_reactivate _ _ _ _ hInv he

theorem regInv_reachable (s : RegistryState) (h : Reachable s) :
    RegInv s := by
  induction h with
  | refl => exact regInv_initial
  | tail hsteps hstep ih => exact regInv_step _ _ ih hstep

/-- Result of comparing the leaf sets of two checkpoint records. -/
structure DiffResult where
  added : List String
  removed : List String
  modified : List String
  unchangedCount : Nat

/-- First digest recorded for a logical path in a checkpoint's leaf list
(the path→digest map of the diff operation). -/
def lookupDigest (leaves : List (String × Digest)) (p : String) :
    Option Digest :=
  (leaves.find? fun e => e.1 == p).map fun e => e.2

/-- Modelled from the spec: the repository README documents a `diff.js`
tool (compare two checkpoints) whose source is not among the provided
sources.  Following §4.6: build path→digest maps from the two leaf lists
and classify every path of the union as added (present only in B),
removed (present only in A), modified (present in both with differing
digest); paths present in both with identical digest are excluded and
only counted. -/
def diffCheckpoints (A B : List (String × Digest)) : DiffResult where
  added := (B.map Prod.fst).dedup.filter fun p => (lookupDigest A p).isNone
  removed :=
    (A.map Prod.fst).dedup.filter fun p => (lookupDigest B p).isNone
  modified := (A.map Prod.fst).dedup.filter fun p =>
    match lookupDigest A p, lookupDigest B p with
    | some da, some db => da != db
    | _, _ => false
  unchangedCount := ((A.map Prod.fst).dedup.filter fun p =>
    match lookupDigest A p, lookupDigest B p with
    | some da, some db => da == db
    | _, _ => false).length

theorem lookupDigest_isSome_of_mem (A : List (String × Digest)) (p : String)
    (h : p ∈ A.map Prod.fst) : (lookupDigest A p).isSome := by
  obtain ⟨e, he, hep⟩ := List.mem_map.mp h
  unfold lookupDigest
  rw [Option.isSome_map']
  exact List.find?_isSome.mpr ⟨e, he, by rw [hep]; simp⟩

/-! ### Concrete instances used by the witnesses -/

/-- A concrete well-formed 32-byte digest with last byte `k % 256`. -/
def dW (k : Nat) : Digest := List.replicate 31 0 ++ [k % 256]

/-- A concrete stand-in hash producing well-formed 32-byte digests. -/
def kW : Digest → Digest :=
  fun b => List.replicate 31 0 ++ [b.foldl (· + ·) 0 % 256]

theorem kW_good : GoodHash kW := by
  intro x
  refine ⟨by simp [kW], ?_⟩
  intro b hb
  simp only [kW, List.mem_append, List.mem_replicate, List.mem_singleton] at hb
  rcases hb with ⟨_, rfl⟩ | rfl
  · omega
  · exact Nat.mod_lt _ (by omega)

/-- A concrete three-leaf list of well-formed digests. -/
def leavesW : List Digest := [dW 1, dW 2, dW 3]

/-- A concrete stored checkpoint. -/
def cpW : Checkpoint := ⟨zeroDigest, 100, 5, "files:3"⟩

/-- A concrete registry state holding one published checkpoint. -/
def sW : RegistryState :=
  { initialState with
    checkpoints := fun id => if id = "b0tresch" then [cpW] else [] }

/-- The registry state after registering agent `"bob"` from address 7. -/
def s1W : RegistryState :=
  { initialState with
    agents := fun id =>
      if id = "bob" then ⟨7, "bob", 42, true⟩ else emptyAgentInfo,
    addressToAgent := fun a => if a = 7 then "bob" else "",
    totalAgents := 1 }

/-! ### The claims -/

/-- C1: Inclusion soundness.  For every ordered list of well-formed leaf
digests, every well-formed hash primitive, and every leaf index below the
leaf count, the proof produced by `getProof` verifies the leaf digest at
that index against the root of the built tree, under the fold of the
on-chain `verifyProof` (sort, concatenate, hash). -/
theorem claim1_inclusion_soundness (keccak : Digest → Digest)
    (hk : GoodHash keccak) (leaves : List Digest)
    (hl : ∀ x ∈ leaves, isDigest x) (i : Nat) (hi : i < leaves.length)
    (p : List Digest) (hp : getProof keccak leaves i = .ok p) :
    solVerifyRoot keccak (leaves.get ⟨i, hi⟩) p (getRoot keccak leaves) =
      true := by
  have hleaf : leaves[i]? = some (leaves.get ⟨i, hi⟩) :=
    List.getElem?_eq_getElem hi
  have hpv := proof_elements_valid keccak hk leaves hl i p hp
  have hform : p = proofFromLayers (buildLayers keccak leaves) i := by
    unfold getProof at hp
    rw [if_neg (by omega)] at hp
    simp only [Except.ok.injEq] at hp
    exact hp.symm
  unfold solVerifyRoot solProcessProof
  rw [foldl_solStep_eq keccak hk p hpv _ (hl _ (List.get_mem leaves i hi))]
  rw [hform, proof_fold_root keccak leaves.length leaves le_rfl i _ hleaf]
  simp

/-- Witness for C1 at a concrete three-leaf tree and hash. -/
theorem claim1_witness :
    solVerifyRoot kW (leavesW.get ⟨1, by decide⟩)
      (proofFromLayers (buildLayers kW leavesW) 1)
      (getRoot kW leavesW) = true :=
  claim1_inclusion_soundness kW kW_good leavesW (by decide) 1 (by decide)
    (proofFromLayers (buildLayers kW leavesW) 1) rfl

/-- C2: The worked three-leaf example.  For any hash and any leaves
`A`, `B`, `C`: layer 1 is the pair hash followed by the promoted `C`, the
root hashes that pair with `C`, the three proofs are as the specification
lists them, and each proof folds back to the root. -/
theorem claim2_three_leaf_example (keccak : Digest → Digest)
    (A B C : Digest) :
    buildLayers keccak [A, B, C] =
      [[A, B, C], [hashPair keccak A B, C],
        [hashPair keccak (hashPair keccak A B) C]] ∧
    getRoot keccak [A, B, C] = hashPair keccak (hashPair keccak A B) C ∧
    getProof keccak [A, B, C] 0 = .ok [B, C] ∧
    getProof keccak [A, B, C] 1 = .ok [A, C] ∧
    getProof keccak [A, B, C] 2 = .ok [hashPair keccak A B] ∧
    [B, C].foldl (hashPair keccak) A =
      hashPair keccak (hashPair keccak A B) C ∧
    [A, C].foldl (hashPair keccak) B =
      hashPair keccak (hashPair keccak A B) C ∧
    [hashPair keccak A B].foldl (hashPair keccak) C =
      hashPair keccak (hashPair keccak A B) C := by
  have e1 : nextLayer keccak [A, B, C] = [hashPair keccak A B, C] := rfl
  have e2 : nextLayer keccak [hashPair keccak A B, C] =
      [hashPair keccak (hashPair keccak A B) C] := rfl
  have hb : buildLayers keccak [A, B, C] =
      [[A, B, C], [hashPair keccak A B, C],
        [hashPair keccak (hashPair keccak A B) C]] := by
    rw [buildLayers_of_gt_one _ _ (by simp), e1,
      buildLayers_of_gt_one _ _ (by simp), e2,
      buildLayers_of_le_one _ _ (by simp)]
  refine ⟨hb, ?_, ?_, ?_, ?_, rfl, ?_, ?_⟩
  · unfold getRoot
    rw [hb]
    rfl
  · unfold getProof
    rw [if_neg (by simp), hb]
    rfl
  · unfold getProof
    rw [if_neg (by simp), hb]
    rfl
  · unfold getProof
    rw [if_neg (by simp), hb]
    rfl
  · simp only [List.foldl_cons, List.foldl_nil]
    rw [hashPair_comm keccak B A]
  · simp only [List.foldl_cons, List.foldl_nil]
    rw [hashPair_comm keccak C (hashPair keccak A B)]

/-- C3: The builder's pairwise combine (`hashPair`, byte-order sort) and
the on-chain verifier's combine step (`bytes32` numeric order) compute the
same function on well-formed fixed-width digests. -/
theorem claim3_combine_agreement (keccak : Digest → Digest) (a b : Digest)
    (ha : isDigest a) (hb : isDigest b) :
    hashPair keccak a b = solStep keccak a b :=
  (solStep_eq_hashPair keccak a b ha hb).symm

/-- Witness for C3 at two concrete 32-byte digests. -/
theorem claim3_witness :
    isDigest (dW 1) ∧ isDigest (dW 2) ∧
      hashPair kW (dW 1) (dW 2) = solStep kW (dW 1) (dW 2) :=
  ⟨by decide, by decide,
    claim3_combine_agreement kW (dW 1) (dW 2) (by decide) (by decide)⟩

/-- C4: Degenerate sizes.  Zero leaves give the all-zero sentinel root and
one leaf gives that leaf back as root — both for every hash primitive, so
no hashing is involved — and the proof for index 0 of a one-leaf tree is
empty. -/
theorem claim4_degenerate_sizes (keccak : Digest → Digest) (a : Digest) :
    getRoot keccak [] = zeroDigest ∧
    getRoot keccak [a] = a ∧
    getProof keccak [a] 0 = .ok [] := by
  refine ⟨?_, ?_, ?_⟩
  · rw [getRoot_of_le_one _ _ (by simp)]
    rfl
  · rw [getRoot_of_le_one _ _ (by simp)]
    rfl
  · unfold getProof
    rw [if_neg (by simp), buildLayers_of_le_one _ _ (by simp)]
    rfl

/-- C5: An index at or past the leaf count makes `getProof` fail with the
explicit out-of-range error and no partial result. -/
theorem claim5_out_of_range (keccak : Digest → Digest)
    (leaves : List Digest) (i : Nat) (h : leaves.length ≤ i) :
    getProof keccak leaves i = .error "Index out of bounds" := by
  unfold getProof
  rw [if_pos (by omega)]

/-- Witness for C5 at a three-leaf tree and index 3. -/
theorem claim5_witness :
    leavesW.length ≤ 3 ∧
      getProof kW leavesW 3 = .error "Index out of bounds" :=
  ⟨by decide, claim5_out_of_range kW leavesW 3 (by decide)⟩

/-- C6: With an empty sibling list, the contract's `verifyProof` returns
`ok true` exactly when the supplied leaf digest is byte-equal to the
stored merkle root of the addressed checkpoint — for every agent and
every in-range checkpoint index. -/
theorem claim6_empty_proof (keccak : Digest → Digest) (s : RegistryState)
    (agentId : String) (idx : Nat) (leaf : Digest) (cp : Checkpoint)
    (h : (s.checkpoints agentId)[idx]? = some cp) :
    (verifyProofFn keccak s agentId idx leaf [] = .ok true ↔
      leaf = cp.merkleRoot) := by
  unfold verifyProofFn
  rw [h]
  unfold solVerifyRoot solProcessProof
  simp only [List.foldl_nil, Except.ok.injEq]
  constructor
  · intro he
    exact eq_of_beq he
  · intro he
    subst he
    simp

/-- Witness for C6: the stored root itself verifies with an empty proof in
a concrete one-checkpoint state. -/
theorem claim6_witness :
    verifyProofFn kW sW "b0tresch" 0 zeroDigest [] = .ok true :=
  (claim6_empty_proof kW sW "b0tresch" 0 zeroDigest cpW
    (by simp [sW, initialState])).mpr rfl

/-- C7: Determinism.  The layer list and the root are pure functions of
the ordered leaf-digest list: building twice from equal lists gives
byte-identical layers and roots. -/
theorem claim7_determinism (keccak : Digest → Digest)
    (l1 l2 : List Digest) (h : l1 = l2) :
    buildLayers keccak l1 = buildLayers keccak l2 ∧
      getRoot keccak l1 = getRoot keccak l2 := by
  subst h
  exact ⟨rfl, rfl⟩

/-- Witness for C7 at the concrete three-leaf list. -/
theorem claim7_witness :
    leavesW = leavesW ∧
      (buildLayers kW leavesW = buildLayers kW leavesW ∧
        getRoot kW leavesW = getRoot kW leavesW) :=
  ⟨rfl, claim7_determinism kW leavesW leavesW rfl⟩

/-- C8: Diff reflexivity.  Diffing a checkpoint's leaf list against itself
yields empty added, removed, and modified sets. -/
theorem claim8_diff_reflexive (X : List (String × Digest)) :
    (diffCheckpoints X X).added = [] ∧
    (diffCheckpoints X X).removed = [] ∧
    (diffCheckpoints X X).modified = [] := by
  simp only [diffCheckpoints]
  refine ⟨?_, ?_, ?_⟩
  · apply List.filter_eq_nil_iff.mpr
    intro p hp
    rw [List.mem_dedup] at hp
    have hs := lookupDigest_isSome_of_mem X p hp
    cases ho : lookupDigest X p with
    | none => rw [ho] at hs; simp at hs
    | some d => simp
  · apply List.filter_eq_nil_iff.mpr
    intro p hp
    rw [List.mem_dedup] at hp
    have hs := lookupDigest_isSome_of_mem X p hp
    cases ho : lookupDigest X p with
    | none => rw [ho] at hs; simp at hs
    | some d => simp
  · apply List.filter_eq_nil_iff.mpr
    intro p hp
    cases ho : lookupDigest X p with
    | none => simp [ho]
    | some d => simp [ho]

/-- C9: Registry ownership invariant.  In every state reachable from
deployment through successful external calls, every agent with a nonzero
owner is named by its owner's reverse-lookup entry, and no two distinct
agents share a nonzero owner. -/
theorem claim9_ownership (s : RegistryState) (h : Reachable s) :
    (∀ id, (s.agents id).owner ≠ 0 →
      s.addressToAgent ((s.agents id).owner) = id) ∧
    ∀ id1 id2, (s.agents id1).owner ≠ 0 →
      (s.agents id1).owner = (s.agents id2).owner → id1 = id2 := by
  have hinv := regInv_reachable s h
  refine ⟨fun id hid => (hinv id hid).2, ?_⟩
  intro id1 id2 h1 h12
  have e1 := (hinv id1 h1).2
  have e2 := (hinv id2 (h12 ▸ h1)).2
  rw [h12] at e1
  exact e1.symm.trans e2

theorem registerAgent_initial_eq :
    registerAgent initialState 7 "bob" 42 = .ok s1W := rfl

/-- Witness for C9 at the state reached by one registration. -/
theorem claim9_witness :
    (∀ id, (s1W.agents id).owner ≠ 0 →
      s1W.addressToAgent ((s1W.agents id).owner) = id) ∧
    ∀ id1 id2, (s1W.agents id1).owner ≠ 0 →
      (s1W.agents id1).owner = (s1W.agents id2).owner → id1 = id2 :=
  claim9_ownership s1W
    (Relation.ReflTransGen.single
      (RegStep.register (by decide) registerAgent_initial_eq))

theorem buildLayers_last_length (keccak : Digest → Digest)
    (l : List Digest) (h : l ≠ []) :
    ∃ top, (buildLayers keccak l).getLast? = some top ∧ top.length = 1 := by
  by_cases hl : l.length ≤ 1
  · rw [buildLayers_of_le_one keccak l hl]
    refine ⟨l, by simp, ?_⟩
    have := List.length_pos.mpr h
    omega
  · rw [buildLayers_of_gt_one keccak l (by omega)]
    have hne : nextLayer keccak l ≠ [] := by
      have hlen2 := nextLayer_length keccak l
      intro hcon
      rw [hcon] at hlen2
      simp at hlen2
      omega
    obtain ⟨top, htop, h1⟩ :=
      buildLayers_last_length keccak (nextLayer keccak l) hne
    obtain ⟨r, rs, hr⟩ := List.exists_cons_of_ne_nil
      (buildLayers_ne_nil keccak (nextLayer keccak l))
    refine ⟨top, ?_, h1⟩
    rw [hr] at htop
    rw [hr, List.getLast?_cons_cons]
    exact htop
termination_by l.length
decreasing_by simp only [nextLayer_length]; omega

/-- C10: Tree construction terminates.  Each `buildTree` iteration halves
the layer (rounding up), which shrinks every layer of more than one
entry, and the final layer of every nonempty build has exactly one
entry. -/
theorem claim10_termination (keccak : Digest → Digest) (l : List Digest)
    (h : l ≠ []) :
    (nextLayer keccak l).length = (l.length + 1) / 2 ∧
    (1 < l.length → (nextLayer keccak l).length < l.length) ∧
    ∃ top, (buildLayers keccak l).getLast? = some top ∧ top.length = 1 :=
  ⟨nextLayer_length keccak l,
    fun h1 => by rw [nextLayer_length]; omega,
    buildLayers_last_length keccak l h⟩

/-- Witness for C10 at the concrete three-leaf list. -/
theorem claim10_witness :
    leavesW ≠ [] ∧
      ((nextLayer kW leavesW).length = (leavesW.length + 1) / 2 ∧
       (1 < leavesW.length →
         (nextLayer kW leavesW).length < leavesW.length) ∧
       ∃ top, (buildLayers kW leavesW).getLast? = some top ∧
         top.length = 1) :=
  ⟨by decide, claim10_termination kW leavesW (by decide)⟩

end AgentMemory
